import Mathlib

/-!
Verification of the directory-watcher / checksum utilities of the repository
(`src/concurrency/ex7/watch.go` and the bounded variant in `src/unnamed/part_000`).

The Go code is shallowly embedded: the `Hashed` record, fingerprint equality
(`HashedEqual`), the snapshot differ (`CompareFileSets`), the per-file hasher
(`Hash`, over an explicit filesystem oracle), the snapshot builder (`HashAll`,
as the deterministic final content of the mutex-protected result map), the
tree enumerator (`Files`, over an explicit filesystem tree), and the SHA-1
digest function used by `Hash` (the algorithm of Go's `crypto/sha1`,
implemented over `Nat` with arithmetic taken modulo `2^32`).

The concurrency structure of the two `HashAll` variants is modelled as a
small-step transition system on task phases, with the semaphore admission
gate of the bounded variant as a side condition on the dispatch rule.
-/

namespace Watch

/-- Embeds the Go struct `Hashed` (`watch.go`): file path, digest bytes
(`nil` slice modelled as `[]`), and the error slot (`nil` modelled as
`none`; the error text is irrelevant to comparison, only its presence). -/
structure Hashed where
  Path : String
  Hash : List Nat
  Err : Option String
deriving DecidableEq, Repr

/-- Embeds the byte-for-byte digest comparison of `HashedEqual`
(`watch.go` lines 49-56): the length check followed by the element loop,
which together are elementwise list equality. -/
def bytesMatch : List Nat → List Nat → Bool
  | [], [] => true
  | x :: xs, y :: ys => x == y && bytesMatch xs ys
  | _, _ => false

/-- Embeds `HashedEqual` (`watch.go` lines 39-58). Go's `*Hashed` pointers
are modelled as `Option Hashed` (`nil` is `none`). The branches follow the
source's order: nil check, path check, error-presence check, digest bytes. -/
def HashedEqual (before after : Option Hashed) : Bool :=
  match before, after with
  | none, none => true
  | none, some _ => false
  | some _, none => false
  | some b, some a =>
    if b.Path ≠ a.Path then false
    else if b.Err.isSome || a.Err.isSome then b.Err.isSome == a.Err.isSome
    else bytesMatch b.Hash a.Hash

/-- Embeds the Go type `FileSet = map[string]*Hashed` as an association list
from path to pointer-to-`Hashed` (the pointer again `Option Hashed`). A Go
map has no duplicate keys; theorems that need that carry a `Nodup`
hypothesis on the key list. -/
abbrev FileSet : Type := List (String × Option Hashed)

/-- Go map indexing `s[p]`: `none` models `has = false`, `some v` models the
stored pointer `v`. -/
def fsGet : FileSet → String → Option (Option Hashed)
  | [], _ => none
  | (q, v) :: rest, p => if q = p then some v else fsGet rest p

/-- Key list of a `FileSet` (the Go map's key set). -/
def keys (s : FileSet) : List String :=
  s.map Prod.fst

/-- Embeds `CompareFileSets` (`watch.go` lines 64-79): one pass over
`before` classifying into deleted (key absent from `after`) or edited
(present but `HashedEqual` fails), one pass over `after` collecting added
(key absent from `before`). Go map iteration order is unspecified, and the
spec makes the three outputs order-irrelevant, so the list order here is
the association-list order. -/
def CompareFileSets (before after : FileSet) :
    List String × List String × List String :=
  let deleted := (before.filter fun bp => (fsGet after bp.1).isNone).map Prod.fst
  let edited := (before.filter fun bp =>
    match fsGet after bp.1 with
    | none => false
    | some ah => !HashedEqual bp.2 ah).map Prod.fst
  let added := (after.filter fun ap => (fsGet before ap.1).isNone).map Prod.fst
  (added, edited, deleted)

/-- Spec-side fingerprint equality, written from the spec's words (section
4.3): equal iff both non-failed with byte-identical digests, or both
failed. Used to compare the code's `HashedEqual` against the spec's rule. -/
def specFingerprintEq (b a : Hashed) : Bool :=
  (b.Err.isNone && a.Err.isNone && b.Hash == a.Hash) ||
    (b.Err.isSome && a.Err.isSome)

/-- Well-formedness of a snapshot as `HashAll` builds it: every stored
pointer is non-nil and its `Path` field is the map key (`results[p] = Hash(p)`
and `Hash(p).Path = p` in the source). -/
def wellFormed (s : FileSet) : Bool :=
  s.all fun pv =>
    match pv.2 with
    | some h => h.Path == pv.1
    | none => false

/-! ### SHA-1 (the digest algorithm of Go's `crypto/sha1`, used by `Hash`)

Implemented over `Nat`, every 32-bit operation taken modulo `2^32`; all
recursions are structural (fuel where needed) so that concrete digests
evaluate inside the kernel. -/

/-- Modulus of 32-bit machine arithmetic, `2^32`. -/
def M32 : Nat := 4294967296

/-- Left rotation of a 32-bit word by `k` bits. -/
def rotl (k x : Nat) : Nat :=
  ((x <<< k) % M32) ||| (x >>> (32 - k))

/-- Big-endian 4-byte encoding of a 32-bit word. -/
def be32 (x : Nat) : List Nat :=
  [(x >>> 24) &&& 255, (x >>> 16) &&& 255, (x >>> 8) &&& 255, x &&& 255]

/-- Big-endian 8-byte encoding of a 64-bit word. -/
def be64 (x : Nat) : List Nat :=
  [(x >>> 56) &&& 255, (x >>> 48) &&& 255, (x >>> 40) &&& 255, (x >>> 32) &&& 255,
   (x >>> 24) &&& 255, (x >>> 16) &&& 255, (x >>> 8) &&& 255, x &&& 255]

/-- SHA-1 padding: the `0x80` byte, zeros to 56 mod 64, then the bit length
as a big-endian 64-bit integer. -/
def padMessage (msg : List Nat) : List Nat :=
  let l := msg.length
  let k := (64 + 56 - ((l + 1) % 64)) % 64
  msg ++ 128 :: List.replicate k 0 ++ be64 (8 * l)

/-- Groups bytes into big-endian 32-bit words (fuel-structural). -/
def toWords : Nat → List Nat → List Nat
  | 0, _ => []
  | _, [] => []
  | fuel + 1, a :: b :: c :: d :: rest =>
    ((a <<< 24) ||| (b <<< 16) ||| (c <<< 8) ||| d) :: toWords fuel rest
  | _ + 1, _ => []

/-- Groups words into 16-word blocks (fuel-structural). -/
def chunk16 : Nat → List Nat → List (List Nat)
  | 0, _ => []
  | _, [] => []
  | fuel + 1, ws => ws.take 16 :: chunk16 fuel (ws.drop 16)

/-- Message-schedule extension, keeping the words most-recent-first:
`w[i] = rotl1 (w[i-3] xor w[i-8] xor w[i-14] xor w[i-16])`. -/
def scheduleAux : Nat → List Nat → List Nat
  | 0, wrev => wrev
  | k + 1, wrev =>
    let x := rotl 1 (wrev.getD 2 0 ^^^ wrev.getD 7 0 ^^^ wrev.getD 13 0 ^^^ wrev.getD 15 0)
    scheduleAux k (x :: wrev)

/-- Extends a 16-word block to the 80-word SHA-1 schedule. -/
def schedule (w16 : List Nat) : List Nat :=
  (scheduleAux 64 w16.reverse).reverse

/-- The SHA-1 round function `f` for round `i`. -/
def sha1F (i b c d : Nat) : Nat :=
  if i < 20 then (b &&& c) ||| ((4294967295 ^^^ b) &&& d)
  else if i < 40 then b ^^^ c ^^^ d
  else if i < 60 then (b &&& c) ||| (b &&& d) ||| (c &&& d)
  else b ^^^ c ^^^ d

/-- The SHA-1 round constant `K` for round `i`. -/
def sha1K (i : Nat) : Nat :=
  if i < 20 then 1518500249
  else if i < 40 then 1859775393
  else if i < 60 then 2400959708
  else 3395469782

/-- The 80 SHA-1 rounds over a scheduled block. -/
def sha1Rounds : List Nat → Nat → Nat × Nat × Nat × Nat × Nat → Nat × Nat × Nat × Nat × Nat
  | [], _, st => st
  | w :: ws, i, (a, b, c, d, e) =>
    let temp := (rotl 5 a + sha1F i b c d + e + sha1K i + w) % M32
    sha1Rounds ws (i + 1) (temp, a, rotl 30 b, c, d)

/-- Processes one 16-word block: run the rounds and add into the state. -/
def processChunk (st : Nat × Nat × Nat × Nat × Nat) (w16 : List Nat) :
    Nat × Nat × Nat × Nat × Nat :=
  let (h0, h1, h2, h3, h4) := st
  let (a, b, c, d, e) := sha1Rounds (schedule w16) 0 st
  ((h0 + a) % M32, (h1 + b) % M32, (h2 + c) % M32, (h3 + d) % M32, (h4 + e) % M32)

/-- SHA-1 digest of a byte sequence: 20 bytes. This is the algorithm Go's
`crypto/sha1` computes via `sha1.New` / `io.Copy` / `Sum` in `Hash`. -/
def sha1 (msg : List Nat) : List Nat :=
  let padded := padMessage msg
  let ws := toWords padded.length padded
  let cs := chunk16 ws.length ws
  let (h0, h1, h2, h3, h4) :=
    cs.foldl processChunk (1732584193, 4023233417, 2562383102, 271733878, 3285377520)
  be32 h0 ++ be32 h1 ++ be32 h2 ++ be32 h3 ++ be32 h4

/-! ### The hasher `Hash` and the snapshot builder `HashAll` -/

/-- Outcome of opening-and-streaming a file, the two failure points of
`Hash` (`os.Open` failing, or `io.Copy` failing mid-stream) and the success
case carrying the file's bytes. The filesystem is an oracle
`String → ReadResult` passed explicitly. -/
inductive ReadResult where
  | openErrorCase (msg : String)
  | readErrorCase (msg : String)
  | ok (content : List Nat)
deriving DecidableEq, Repr

/-- True on the two failure outcomes of a file read. -/
def isFailure : ReadResult → Bool
  | .ok _ => false
  | _ => true

/-- Embeds `Hash` (`watch.go` lines 105-117): on an open or read error it
returns `Hashed` with the path, the error, and a `nil` digest; on success
the path and the SHA-1 digest of the contents. -/
def Hash (fs : String → ReadResult) (path : String) : Hashed :=
  match fs path with
  | .openErrorCase e => { Path := path, Hash := [], Err := some e }
  | .readErrorCase e => { Path := path, Hash := [], Err := some e }
  | .ok content => { Path := path, Hash := sha1 content, Err := none }

/-- Embeds the final result map of `HashAll` (both variants): after
`wg.Wait()` every spawned task has stored `results[p] = Hash(p)` under the
mutex, so the returned `FileSet` maps each input path to `Hash` of that
path. `Hash` is deterministic, so duplicate input paths store the same
value and the unspecified write order does not matter. -/
def HashAll (fs : String → ReadResult) (paths : List String) : FileSet :=
  paths.map fun p => (p, some (Hash fs p))

/-! ### The enumerator `Files`

`filepath.Walk` with the repository's callback (`watch.go` lines 121-139).
The filesystem is an explicit tree; each entry carries its full path (the
string `filepath.Walk` would hand the callback). `inaccessible` models an
entry whose stat fails, so the callback receives a non-nil `err`: the code
prints a diagnostic naming the path and returns nil, and `Walk` does not
descend. Entries with a non-regular mode (`Mode()&os.ModeType != 0`) are
skipped; `Walk` recurses only into directories (symlinks are not
followed). -/

mutual
/-- A filesystem tree entry, identified by its full path. -/
inductive FSEntry where
  | regular (path : String)
  | dir (path : String) (children : FSEntryList)
  | symlink (path : String)
  | device (path : String)
  | inaccessible (path : String)

/-- A list of sibling entries (a directory's contents, or the roots). -/
inductive FSEntryList where
  | nil
  | cons (e : FSEntry) (rest : FSEntryList)
end

mutual
/-- Embeds one `filepath.Walk` invocation with the repository's callback:
returns the collected regular-file paths and the diagnostics emitted
(`"ERROR: unable to access %q"` per inaccessible path). The callback always
returns nil, so the walk never aborts: after any entry, the remaining
siblings are still processed. -/
def walk : FSEntry → List String × List String
  | .regular p => ([p], [])
  | .dir _ cs => walkList cs
  | .symlink _ => ([], [])
  | .device _ => ([], [])
  | .inaccessible p => ([], [p])

/-- Walks a list of sibling entries in order, concatenating the collected
files and diagnostics. -/
def walkList : FSEntryList → List String × List String
  | .nil => ([], [])
  | .cons e rest =>
    ((walk e).1 ++ (walkList rest).1, (walk e).2 ++ (walkList rest).2)
end

/-- Embeds `Files` (`watch.go` lines 121-139): walk every root in order and
append the regular-file paths; the first component is the returned list,
the second the diagnostics printed along the way. -/
def Files (roots : FSEntryList) : List String × List String :=
  walkList roots

mutual
/-- Spec-side characterisation: `p` is the path of a regular file reachable
by recursive descent (descending only through accessible directories). -/
inductive RegularIn : FSEntry → String → Prop
  | reg (p : String) : RegularIn (.regular p) p
  | dir (d : String) (cs : FSEntryList) (p : String) :
    RegularInList cs p → RegularIn (.dir d cs) p

/-- `p` is a reachable regular-file path of one of the entries. -/
inductive RegularInList : FSEntryList → String → Prop
  | head (e : FSEntry) (rest : FSEntryList) (p : String) :
    RegularIn e p → RegularInList (.cons e rest) p
  | tail (e : FSEntry) (rest : FSEntryList) (p : String) :
    RegularInList rest p → RegularInList (.cons e rest) p
end

mutual
/-- Spec-side characterisation: `p` is the path of a visited entry whose
stat/access fails (reachable through accessible directories). -/
inductive InaccessibleIn : FSEntry → String → Prop
  | bad (p : String) : InaccessibleIn (.inaccessible p) p
  | dir (d : String) (cs : FSEntryList) (p : String) :
    InaccessibleInList cs p → InaccessibleIn (.dir d cs) p

/-- `p` is a reachable inaccessible-entry path of one of the entries. -/
inductive InaccessibleInList : FSEntryList → String → Prop
  | head (e : FSEntry) (rest : FSEntryList) (p : String) :
    InaccessibleIn e p → InaccessibleInList (.cons e rest) p
  | tail (e : FSEntry) (rest : FSEntryList) (p : String) :
    InaccessibleInList rest p → InaccessibleInList (.cons e rest) p
end

/-! ### Concurrency model of the two `HashAll` variants

Each input path is one task. A task is `pending` before its goroutine's
hash work starts, `inFlight` while the file-read-and-hash operation runs,
and `done` once it has completed (and, in the bounded variant, released
its semaphore slot). The state is the list of task phases; the initial
state of `n` paths is `n` pending tasks.

The bounded variant (`HashAll` in `src/unnamed/part_000`, lines 142-163)
performs `sem <- struct{}{}` on a 100-capacity channel before spawning
each goroutine and releases the slot via `defer` on every exit path, so a
task may move to `inFlight` only while fewer than 100 tasks are in flight.
The `ex7` variant (`src/concurrency/ex7/watch.go`, lines 82-101) spawns one
goroutine per path with no admission gate, so dispatch is unconditional. -/

/-- Phase of one per-path hash task. -/
inductive TaskPhase where
  | pending
  | inFlight
  | done
deriving DecidableEq, Repr

/-- Number of tasks currently in flight (the instrumented counter of the
spec's concurrency scenario). -/
def inFlightCount (s : List TaskPhase) : Nat :=
  s.countP fun t => t == .inFlight

/-- One step of the bounded builder: dispatch acquires a semaphore slot,
so it is enabled only below the 100-slot ceiling; completion releases the
slot (the task leaves flight). -/
inductive BoundedStep : List TaskPhase → List TaskPhase → Prop
  | dispatch (s : List TaskPhase) (i : Nat) (h : s.get? i = some .pending)
      (hc : inFlightCount s < 100) : BoundedStep s (s.set i .inFlight)
  | complete (s : List TaskPhase) (i : Nat) (h : s.get? i = some .inFlight) :
      BoundedStep s (s.set i .done)

/-- One step of the `ex7` builder: no admission gate, dispatch is always
enabled. -/
inductive UnboundedStep : List TaskPhase → List TaskPhase → Prop
  | dispatch (s : List TaskPhase) (i : Nat) (h : s.get? i = some .pending) :
      UnboundedStep s (s.set i .inFlight)
  | complete (s : List TaskPhase) (i : Nat) (h : s.get? i = some .inFlight) :
      UnboundedStep s (s.set i .done)

/-! ### Helper lemmas -/

/-- The length-check-plus-loop comparison is elementwise list equality. -/
lemma bytesMatch_eq_beq (xs ys : List Nat) : bytesMatch xs ys = (xs == ys) := by
  induction xs generalizing ys with
  | nil => cases ys <;> rfl
  | cons x xs ih =>
    cases ys with
    | nil => rfl
    | cons y ys => simp [bytesMatch, ih, List.cons_beq_cons]

/-- Digest comparison is symmetric. -/
lemma bytesMatch_comm (xs ys : List Nat) : bytesMatch xs ys = bytesMatch ys xs := by
  induction xs generalizing ys with
  | nil => cases ys <;> rfl
  | cons x xs ih =>
    cases ys with
    | nil => rfl
    | cons y ys => simp [bytesMatch, ih, Bool.and_comm, BEq.comm]

/-- `HashedEqual` is reflexive. -/
lemma HashedEqual_refl (x : Option Hashed) : HashedEqual x x = true := by
  cases x with
  | none => rfl
  | some b =>
    simp only [HashedEqual, ne_eq, not_true_eq_false, if_false, ite_not]
    by_cases hb : b.Err.isSome <;> simp [hb, bytesMatch_eq_beq]

/-- `HashedEqual` is symmetric. -/
lemma HashedEqual_symm (x y : Option Hashed) : HashedEqual x y = HashedEqual y x := by
  cases x with
  | none => cases y <;> rfl
  | some b =>
    cases y with
    | none => rfl
    | some a =>
      simp only [HashedEqual, ne_eq, ite_not]
      by_cases hp : b.Path = a.Path
      · rw [if_pos hp, if_pos hp.symm]
        by_cases hb : b.Err.isSome <;> by_cases ha : a.Err.isSome <;>
          simp [hb, ha, bytesMatch_comm]
      · rw [if_neg hp, if_neg fun h => hp h.symm]

/-- On two non-nil fingerprints with the same path, the code's
`HashedEqual` coincides with the spec's fingerprint-equality rule. -/
lemma HashedEqual_eq_spec (b a : Hashed) (h : b.Path = a.Path) :
    HashedEqual (some b) (some a) = specFingerprintEq b a := by
  simp only [HashedEqual, specFingerprintEq, ne_eq, h, not_true_eq_false, if_false]
  cases hb : b.Err <;> cases ha : a.Err <;> simp [bytesMatch_eq_beq]

/-- A key is absent from the map exactly when lookup yields no entry. -/
lemma fsGet_eq_none_iff (s : FileSet) (p : String) :
    fsGet s p = none ↔ p ∉ keys s := by
  induction s with
  | nil => simp [fsGet, keys]
  | cons qv rest ih =>
    obtain ⟨q, v⟩ := qv
    by_cases hq : q = p
    · subst hq
      simp [fsGet, keys]
    · simp only [fsGet]
      rw [if_neg hq, ih]
      simp only [keys, List.map_cons, List.mem_cons, not_or]
      exact ⟨fun hn => ⟨fun h => hq h.symm, hn⟩, fun hn => hn.2⟩

/-- A successful lookup returns an entry of the list. -/
lemma fsGet_mem (s : FileSet) (p : String) (v : Option Hashed)
    (h : fsGet s p = some v) : (p, v) ∈ s := by
  induction s with
  | nil => simp [fsGet] at h
  | cons qv rest ih =>
    obtain ⟨q, w⟩ := qv
    by_cases hq : q = p
    · subst hq
      have h2 : w = v := by simpa [fsGet] using h
      subst h2
      exact List.mem_cons_self _ _
    · simp only [fsGet] at h
      rw [if_neg hq] at h
      exact List.mem_cons_of_mem _ (ih h)

/-- With no duplicate keys, membership determines the lookup result. -/
lemma mem_fsGet (s : FileSet) (p : String) (v : Option Hashed)
    (hnd : (keys s).Nodup) (h : (p, v) ∈ s) : fsGet s p = some v := by
  induction s with
  | nil => simp at h
  | cons qv rest ih =>
    obtain ⟨q, w⟩ := qv
    simp only [keys, List.map_cons, List.nodup_cons] at hnd
    rcases List.mem_cons.mp h with heq | hmem
    · injection heq with h1 h2
      subst h1
      subst h2
      simp [fsGet]
    · have hp : q ≠ p := by
        rintro rfl
        exact hnd.1 (List.mem_map.mpr ⟨(q, v), hmem, rfl⟩)
      simp only [fsGet]
      rw [if_neg hp]
      exact ih hnd.2 hmem

/-- Membership in a filtered key projection, the shape of all three
`CompareFileSets` outputs. -/
lemma mem_filter_map_fst (s : FileSet) (f : String × Option Hashed → Bool)
    (p : String) :
    p ∈ (s.filter f).map Prod.fst ↔ ∃ v, (p, v) ∈ s ∧ f (p, v) = true := by
  simp only [List.mem_map, List.mem_filter]
  constructor
  · rintro ⟨⟨q, v⟩, ⟨hmem, hf⟩, rfl⟩
    exact ⟨v, hmem, hf⟩
  · rintro ⟨v, hmem, hf⟩
    exact ⟨(p, v), ⟨hmem, hf⟩, rfl⟩

/-- Unfolding of the well-formedness invariant at one entry. -/
lemma wellFormed_spec (s : FileSet) (hwf : wellFormed s = true)
    (p : String) (v : Option Hashed) (h : (p, v) ∈ s) :
    ∃ hh : Hashed, v = some hh ∧ hh.Path = p := by
  have := List.all_eq_true.mp hwf (p, v) h
  cases v with
  | none => simp at this
  | some hh => exact ⟨hh, rfl, by simpa using this⟩

/-- Membership in the added output of the differ. -/
lemma mem_added_iff (before after : FileSet) (p : String) :
    p ∈ (CompareFileSets before after).1 ↔
      (∃ v, (p, v) ∈ after) ∧ fsGet before p = none := by
  show p ∈ (after.filter fun ap => (fsGet before ap.1).isNone).map Prod.fst ↔ _
  rw [mem_filter_map_fst]
  constructor
  · rintro ⟨v, hmem, hf⟩
    exact ⟨⟨v, hmem⟩, by simpa using hf⟩
  · rintro ⟨⟨v, hmem⟩, hg⟩
    exact ⟨v, hmem, by simpa using hg⟩

/-- Membership in the deleted output of the differ. -/
lemma mem_deleted_iff (before after : FileSet) (p : String) :
    p ∈ (CompareFileSets before after).2.2 ↔
      (∃ v, (p, v) ∈ before) ∧ fsGet after p = none := by
  show p ∈ (before.filter fun bp => (fsGet after bp.1).isNone).map Prod.fst ↔ _
  rw [mem_filter_map_fst]
  constructor
  · rintro ⟨v, hmem, hf⟩
    exact ⟨⟨v, hmem⟩, by simpa using hf⟩
  · rintro ⟨⟨v, hmem⟩, hg⟩
    exact ⟨v, hmem, by simpa using hg⟩

/-- Membership in the edited output of the differ. -/
lemma mem_edited_iff (before after : FileSet) (p : String) :
    p ∈ (CompareFileSets before after).2.1 ↔
      ∃ v ah, (p, v) ∈ before ∧ fsGet after p = some ah ∧
        HashedEqual v ah = false := by
  show p ∈ (before.filter fun bp =>
    match fsGet after bp.1 with
    | none => false
    | some ah => !HashedEqual bp.2 ah).map Prod.fst ↔ _
  rw [mem_filter_map_fst]
  constructor
  · rintro ⟨v, hmem, hf⟩
    cases hg : fsGet after p with
    | none =>
      rw [show ((p, v) : String × Option Hashed).1 = p from rfl, hg] at hf
      simp at hf
    | some ah =>
      rw [show ((p, v) : String × Option Hashed).1 = p from rfl, hg] at hf
      exact ⟨v, ah, hmem, rfl, by simpa using hf⟩
  · rintro ⟨v, ah, hmem, hg, hne⟩
    refine ⟨v, hmem, ?_⟩
    rw [show ((p, v) : String × Option Hashed).1 = p from rfl, hg]
    simp [hne]

/-- A path is a key exactly when some entry carries it. -/
lemma mem_keys_iff (s : FileSet) (p : String) :
    p ∈ keys s ↔ ∃ v, (p, v) ∈ s := by
  simp only [keys, List.mem_map]
  constructor
  · rintro ⟨⟨q, v⟩, hm, rfl⟩
    exact ⟨v, hm⟩
  · rintro ⟨v, hm⟩
    exact ⟨(p, v), hm, rfl⟩

/-- Edited membership phrased through lookups, valid when `before` has no
duplicate keys. -/
lemma mem_edited_iff_nodup (before after : FileSet)
    (hndb : (keys before).Nodup) (p : String) :
    p ∈ (CompareFileSets before after).2.1 ↔
      ∃ v ah, fsGet before p = some v ∧ fsGet after p = some ah ∧
        HashedEqual v ah = false := by
  rw [mem_edited_iff]
  constructor
  · rintro ⟨v, ah, hmem, hg, hne⟩
    exact ⟨v, ah, mem_fsGet _ _ _ hndb hmem, hg, hne⟩
  · rintro ⟨v, ah, hgb, hg, hne⟩
    exact ⟨v, ah, fsGet_mem _ _ _ hgb, hg, hne⟩

/-- One direction of edited-set symmetry; needs no-duplicate keys only on
the first snapshot. -/
lemma mem_edited_swap (A B : FileSet) (hA : (keys A).Nodup) (p : String)
    (h : p ∈ (CompareFileSets A B).2.1) : p ∈ (CompareFileSets B A).2.1 := by
  rw [mem_edited_iff] at h ⊢
  obtain ⟨v, ah, hmem, hg, hne⟩ := h
  refine ⟨ah, v, fsGet_mem _ _ _ hg, mem_fsGet _ _ _ hA hmem, ?_⟩
  rw [HashedEqual_symm]
  exact hne

/-! ### Claim theorems -/

/-- C9: the fingerprint equality test is total on nil inputs — comparing
two nil fingerprints returns equal, and on any argument with a nil on
either side `HashedEqual` returns cleanly (true exactly when the other
side is nil too), never faulting. -/
theorem hashedEqual_nil_total :
    HashedEqual none none = true ∧
      ∀ x : Option Hashed, HashedEqual none x = x.isNone ∧
        HashedEqual x none = x.isNone := by
  refine ⟨rfl, fun x => ?_⟩
  cases x <;> exact ⟨rfl, rfl⟩

/-- C10: path equality is an additional conjunct of fingerprint equality —
two non-nil fingerprints with different `Path` fields compare unequal even
with identical failure states and digest bytes. -/
theorem hashedEqual_path_conjunct (b a : Hashed) (hp : b.Path ≠ a.Path)
    (hs : b.Err.isSome = a.Err.isSome) (hd : b.Hash = a.Hash) :
    HashedEqual (some b) (some a) = false := by
  simp [HashedEqual, hp]

/-- Witness for C10 at two concrete fingerprints differing only in path. -/
theorem hashedEqual_path_conjunct_check :
    ("a" : String) ≠ "b" ∧
      (none : Option String).isSome = (none : Option String).isSome ∧
      ([1] : List Nat) = [1] ∧
      HashedEqual (some { Path := "a", Hash := [1], Err := none })
        (some { Path := "b", Hash := [1], Err := none }) = false :=
  ⟨by decide, rfl, rfl,
    hashedEqual_path_conjunct
      { Path := "a", Hash := [1], Err := none }
      { Path := "b", Hash := [1], Err := none }
      (by decide) rfl rfl⟩

/-- C5: diffing a snapshot against itself yields empty added, edited and
deleted (the snapshot, a Go map, has no duplicate keys). -/
theorem compareFileSets_self (A : FileSet) (hnd : (keys A).Nodup) :
    CompareFileSets A A = ([], [], []) := by
  have hget : ∀ p v, (p, v) ∈ A → fsGet A p = some v :=
    fun p v h => mem_fsGet A p v hnd h
  show ((A.filter fun ap => (fsGet A ap.1).isNone).map Prod.fst,
      (A.filter fun bp =>
        match fsGet A bp.1 with
        | none => false
        | some ah => !HashedEqual bp.2 ah).map Prod.fst,
      (A.filter fun bp => (fsGet A bp.1).isNone).map Prod.fst) = ([], [], [])
  have h1 : (A.filter fun ap => (fsGet A ap.1).isNone) = [] := by
    rw [List.filter_eq_nil_iff]
    rintro ⟨p, v⟩ hm
    simp [hget p v hm]
  have h2 : (A.filter fun bp =>
      match fsGet A bp.1 with
      | none => false
      | some ah => !HashedEqual bp.2 ah) = [] := by
    rw [List.filter_eq_nil_iff]
    rintro ⟨p, v⟩ hm
    rw [show ((p, v) : String × Option Hashed).1 = p from rfl, hget p v hm]
    simp [HashedEqual_refl]
  rw [h1, h2]
  simp

/-- Witness for C5 at a concrete one-entry snapshot. -/
theorem compareFileSets_self_check :
    (keys [("f", some { Path := "f", Hash := [1], Err := none })]).Nodup ∧
      CompareFileSets [("f", some { Path := "f", Hash := [1], Err := none })]
        [("f", some { Path := "f", Hash := [1], Err := none })] = ([], [], []) :=
  ⟨by decide, compareFileSets_self _ (by decide)⟩

/-- C4: symmetry of the differ — deleted of `diff(A,B)` equals added of
`diff(B,A)` as a set, added of `diff(A,B)` equals deleted of `diff(B,A)`,
and the two edited outputs are equal as sets. -/
theorem compareFileSets_symm (A B : FileSet)
    (hA : (keys A).Nodup) (hB : (keys B).Nodup) :
    (∀ p, p ∈ (CompareFileSets A B).2.2 ↔ p ∈ (CompareFileSets B A).1) ∧
      (∀ p, p ∈ (CompareFileSets A B).1 ↔ p ∈ (CompareFileSets B A).2.2) ∧
      (∀ p, p ∈ (CompareFileSets A B).2.1 ↔ p ∈ (CompareFileSets B A).2.1) := by
  refine ⟨fun p => ?_, fun p => ?_, fun p => ?_⟩
  · rw [mem_deleted_iff, mem_added_iff]
  · rw [mem_added_iff, mem_deleted_iff]
  · exact ⟨mem_edited_swap A B hA p, mem_edited_swap B A hB p⟩

/-- Witness for C4 at two concrete snapshots with one shared, edited
path and one path on each side only. -/
theorem compareFileSets_symm_check :
    (keys [("f", some { Path := "f", Hash := [1], Err := none }),
           ("g", some { Path := "g", Hash := [2], Err := none })]).Nodup ∧
      (keys [("f", some { Path := "f", Hash := [3], Err := none }),
             ("h", some { Path := "h", Hash := [4], Err := none })]).Nodup ∧
      (∀ p, p ∈ (CompareFileSets
          [("f", some { Path := "f", Hash := [1], Err := none }),
           ("g", some { Path := "g", Hash := [2], Err := none })]
          [("f", some { Path := "f", Hash := [3], Err := none }),
           ("h", some { Path := "h", Hash := [4], Err := none })]).2.2 ↔
        p ∈ (CompareFileSets
          [("f", some { Path := "f", Hash := [3], Err := none }),
           ("h", some { Path := "h", Hash := [4], Err := none })]
          [("f", some { Path := "f", Hash := [1], Err := none }),
           ("g", some { Path := "g", Hash := [2], Err := none })]).1) ∧
      (∀ p, p ∈ (CompareFileSets
          [("f", some { Path := "f", Hash := [1], Err := none }),
           ("g", some { Path := "g", Hash := [2], Err := none })]
          [("f", some { Path := "f", Hash := [3], Err := none }),
           ("h", some { Path := "h", Hash := [4], Err := none })]).1 ↔
        p ∈ (CompareFileSets
          [("f", some { Path := "f", Hash := [3], Err := none }),
           ("h", some { Path := "h", Hash := [4], Err := none })]
          [("f", some { Path := "f", Hash := [1], Err := none }),
           ("g", some { Path := "g", Hash := [2], Err := none })]).2.2) ∧
      (∀ p, p ∈ (CompareFileSets
          [("f", some { Path := "f", Hash := [1], Err := none }),
           ("g", some { Path := "g", Hash := [2], Err := none })]
          [("f", some { Path := "f", Hash := [3], Err := none }),
           ("h", some { Path := "h", Hash := [4], Err := none })]).2.1 ↔
        p ∈ (CompareFileSets
          [("f", some { Path := "f", Hash := [3], Err := none }),
           ("h", some { Path := "h", Hash := [4], Err := none })]
          [("f", some { Path := "f", Hash := [1], Err := none }),
           ("g", some { Path := "g", Hash := [2], Err := none })]).2.1) := by
  have h := compareFileSets_symm
    [("f", some { Path := "f", Hash := [1], Err := none }),
     ("g", some { Path := "g", Hash := [2], Err := none })]
    [("f", some { Path := "f", Hash := [3], Err := none }),
     ("h", some { Path := "h", Hash := [4], Err := none })]
    (by decide) (by decide)
  exact ⟨by decide, by decide, h.1, h.2.1, h.2.2⟩

/-- A lookup hitting a well-formed snapshot yields a non-nil fingerprint
whose path is the key. -/
lemma fsGet_wellFormed (s : FileSet) (hwf : wellFormed s = true)
    (p : String) (v : Option Hashed) (h : fsGet s p = some v) :
    ∃ hh : Hashed, v = some hh ∧ hh.Path = p :=
  wellFormed_spec s hwf p v (fsGet_mem s p v h)

/-- C1: for snapshots (no duplicate keys, every entry a non-nil fingerprint
keyed by its own path, as `HashAll` builds them), a path present in both is
classified Edited exactly when the two fingerprints are unequal under the
spec's rule — equal iff both non-failed with byte-identical digests or both
failed — so a failed-to-non-failed or non-failed-to-failed transition is
Edited, and a present-in-both path is never Added or Deleted. -/
theorem compareFileSets_edited_rule (before after : FileSet)
    (hndb : (keys before).Nodup)
    (hwb : wellFormed before = true) (hwa : wellFormed after = true)
    (p : String) (hb ha : Hashed)
    (hgb : fsGet before p = some (some hb))
    (hga : fsGet after p = some (some ha)) :
    (p ∈ (CompareFileSets before after).2.1 ↔ specFingerprintEq hb ha = false) ∧
      (hb.Err.isSome ≠ ha.Err.isSome → p ∈ (CompareFileSets before after).2.1) ∧
      p ∉ (CompareFileSets before after).1 ∧
      p ∉ (CompareFileSets before after).2.2 := by
  obtain ⟨hb2, heqb, hpb⟩ := fsGet_wellFormed before hwb p (some hb) hgb
  obtain ⟨ha2, heqa, hpa⟩ := fsGet_wellFormed after hwa p (some ha) hga
  injection heqb with heqb
  injection heqa with heqa
  subst heqb
  subst heqa
  have hspec : HashedEqual (some hb) (some ha) = specFingerprintEq hb ha :=
    HashedEqual_eq_spec hb ha (hpb.trans hpa.symm)
  have hiff : p ∈ (CompareFileSets before after).2.1 ↔
      specFingerprintEq hb ha = false := by
    rw [mem_edited_iff_nodup before after hndb]
    constructor
    · rintro ⟨v, ah, hgb2, hga2, hne⟩
      rw [hgb] at hgb2
      rw [hga] at hga2
      injection hgb2 with hgb2
      injection hga2 with hga2
      subst hgb2
      subst hga2
      rw [← hspec]
      exact hne
    · intro hne
      exact ⟨some hb, some ha, hgb, hga, hspec.trans hne⟩
  refine ⟨hiff, fun hmix => ?_, ?_, ?_⟩
  · apply hiff.mpr
    cases hbe : hb.Err <;> cases hae : ha.Err <;>
      simp [specFingerprintEq, hbe, hae] <;> simp [hbe, hae] at hmix
  · rw [mem_added_iff]
    rintro ⟨-, hnone⟩
    rw [hgb] at hnone
    cases hnone
  · rw [mem_deleted_iff]
    rintro ⟨-, hnone⟩
    rw [hga] at hnone
    cases hnone

/-- Witness for C1: a path whose readability state flips from failed to
non-failed between two one-entry snapshots. -/
theorem compareFileSets_edited_rule_check :
    (keys [("f", some { Path := "f", Hash := [], Err := some "e" })]).Nodup ∧
      wellFormed [("f", some { Path := "f", Hash := [], Err := some "e" })] = true ∧
      wellFormed [("f", some { Path := "f", Hash := [5], Err := none })] = true ∧
      fsGet [("f", some { Path := "f", Hash := [], Err := some "e" })] "f" =
        some (some { Path := "f", Hash := [], Err := some "e" }) ∧
      fsGet [("f", some { Path := "f", Hash := [5], Err := none })] "f" =
        some (some { Path := "f", Hash := [5], Err := none }) ∧
      ("f" ∈ (CompareFileSets
          [("f", some { Path := "f", Hash := [], Err := some "e" })]
          [("f", some { Path := "f", Hash := [5], Err := none })]).2.1 ↔
        specFingerprintEq { Path := "f", Hash := [], Err := some "e" }
          { Path := "f", Hash := [5], Err := none } = false) ∧
      "f" ∉ (CompareFileSets
          [("f", some { Path := "f", Hash := [], Err := some "e" })]
          [("f", some { Path := "f", Hash := [5], Err := none })]).1 ∧
      "f" ∉ (CompareFileSets
          [("f", some { Path := "f", Hash := [], Err := some "e" })]
          [("f", some { Path := "f", Hash := [5], Err := none })]).2.2 := by
  have h := compareFileSets_edited_rule
    [("f", some { Path := "f", Hash := [], Err := some "e" })]
    [("f", some { Path := "f", Hash := [5], Err := none })]
    (by decide) (by decide) (by decide) "f"
    { Path := "f", Hash := [], Err := some "e" }
    { Path := "f", Hash := [5], Err := none }
    (by decide) (by decide)
  exact ⟨by decide, by decide, by decide, by decide, by decide,
    h.1, h.2.2.1, h.2.2.2⟩

/-- C2: the three differ outputs are pairwise disjoint, and their union is
exactly the union of the two key sets minus the paths present in both with
spec-equal fingerprints (snapshots well-formed and duplicate-free, as
`HashAll` builds them). -/
theorem compareFileSets_partition (before after : FileSet)
    (hndb : (keys before).Nodup) (hnda : (keys after).Nodup)
    (hwb : wellFormed before = true) (hwa : wellFormed after = true) :
    (∀ p, ¬(p ∈ (CompareFileSets before after).1 ∧
        p ∈ (CompareFileSets before after).2.1)) ∧
      (∀ p, ¬(p ∈ (CompareFileSets before after).1 ∧
        p ∈ (CompareFileSets before after).2.2)) ∧
      (∀ p, ¬(p ∈ (CompareFileSets before after).2.1 ∧
        p ∈ (CompareFileSets before after).2.2)) ∧
      ∀ p, (p ∈ (CompareFileSets before after).1 ∨
          p ∈ (CompareFileSets before after).2.1 ∨
          p ∈ (CompareFileSets before after).2.2) ↔
        ((p ∈ keys before ∨ p ∈ keys after) ∧
          ¬∃ hb ha : Hashed, fsGet before p = some (some hb) ∧
            fsGet after p = some (some ha) ∧
            specFingerprintEq hb ha = true) := by
  have hkb : ∀ p : String, p ∈ keys before ↔ fsGet before p ≠ none := by
    intro p
    rw [Ne, fsGet_eq_none_iff, not_not]
  have hka : ∀ p : String, p ∈ keys after ↔ fsGet after p ≠ none := by
    intro p
    rw [Ne, fsGet_eq_none_iff, not_not]
  refine ⟨fun p => ?_, fun p => ?_, fun p => ?_, fun p => ?_⟩
  · rintro ⟨ha1, he⟩
    rw [mem_added_iff] at ha1
    rw [mem_edited_iff] at he
    obtain ⟨v, ah, hmem, -, -⟩ := he
    rw [fsGet_eq_none_iff, mem_keys_iff] at ha1
    exact ha1.2 ⟨v, hmem⟩
  · rintro ⟨ha1, hd⟩
    rw [mem_added_iff] at ha1
    rw [mem_deleted_iff] at hd
    rw [fsGet_eq_none_iff, mem_keys_iff] at ha1
    exact ha1.2 hd.1
  · rintro ⟨he, hd⟩
    rw [mem_edited_iff] at he
    rw [mem_deleted_iff] at hd
    obtain ⟨v, ah, -, hg, -⟩ := he
    rw [hd.2] at hg
    cases hg
  · cases hgb : fsGet before p with
    | none =>
      cases hga : fsGet after p with
      | none =>
        constructor
        · rintro (h | h | h)
          · rw [mem_added_iff] at h
            rw [fsGet_eq_none_iff, mem_keys_iff] at hga
            exact absurd h.1 hga
          · rw [mem_edited_iff] at h
            obtain ⟨v, ah, -, hg, -⟩ := h
            rw [hga] at hg
            cases hg
          · rw [mem_deleted_iff] at h
            rw [fsGet_eq_none_iff, mem_keys_iff] at hgb
            exact absurd h.1 hgb
        · rintro ⟨hk | hk, -⟩
          · rw [hkb] at hk
            exact absurd hgb hk
          · rw [hka] at hk
            exact absurd hga hk
      | some va =>
        obtain ⟨ha2, rfl, hpa⟩ := fsGet_wellFormed after hwa p va hga
        constructor
        · rintro -
          refine ⟨Or.inr ((hka p).mpr (by rw [hga]; simp)), ?_⟩
          rintro ⟨hb2, ha3, hgb2, -, -⟩
          exact Option.noConfusion hgb2
        · rintro -
          refine Or.inl ?_
          rw [mem_added_iff]
          exact ⟨(mem_keys_iff after p).mp ((hka p).mpr (by rw [hga]; simp)), hgb⟩
    | some vb =>
      obtain ⟨hb2, rfl, hpb⟩ := fsGet_wellFormed before hwb p vb hgb
      cases hga : fsGet after p with
      | none =>
        constructor
        · rintro -
          refine ⟨Or.inl ((hkb p).mpr (by rw [hgb]; simp)), ?_⟩
          rintro ⟨hb3, ha3, -, hga2, -⟩
          exact Option.noConfusion hga2
        · rintro -
          refine Or.inr (Or.inr ?_)
          rw [mem_deleted_iff]
          exact ⟨(mem_keys_iff before p).mp ((hkb p).mpr (by rw [hgb]; simp)), hga⟩
      | some va =>
        obtain ⟨ha2, rfl, hpa⟩ := fsGet_wellFormed after hwa p va hga
        have hspec : HashedEqual (some hb2) (some ha2) = specFingerprintEq hb2 ha2 :=
          HashedEqual_eq_spec hb2 ha2 (hpb.trans hpa.symm)
        constructor
        · rintro (h | h | h)
          · rw [mem_added_iff] at h
            rw [hgb] at h
            cases h.2
          · rw [mem_edited_iff_nodup before after hndb] at h
            obtain ⟨v, ah, hgb2, hga2, hne⟩ := h
            rw [hgb] at hgb2
            rw [hga] at hga2
            injection hgb2 with hgb2
            injection hga2 with hga2
            subst hgb2
            subst hga2
            refine ⟨Or.inl ((hkb p).mpr (by rw [hgb]; simp)), ?_⟩
            rintro ⟨hb3, ha3, hgb3, hga3, heq⟩
            injection hgb3 with hgb3
            injection hga3 with hga3
            injection hgb3 with hgb3
            injection hga3 with hga3
            subst hgb3
            subst hga3
            rw [hspec, heq] at hne
            cases hne
          · rw [mem_deleted_iff] at h
            rw [hga] at h
            cases h.2
        · rintro ⟨-, hnoeq⟩
          refine Or.inr (Or.inl ?_)
          rw [mem_edited_iff_nodup before after hndb]
          refine ⟨some hb2, some ha2, by rw [hgb], by rw [hga], ?_⟩
          rw [hspec]
          cases heq : specFingerprintEq hb2 ha2 with
          | false => rfl
          | true => exact absurd ⟨hb2, ha2, rfl, rfl, heq⟩ hnoeq

/-- Witness for C2 at concrete snapshots with an added, an edited, a
deleted and an unchanged path. -/
theorem compareFileSets_partition_check :
    (keys [("u", some { Path := "u", Hash := [9], Err := none }),
           ("e", some { Path := "e", Hash := [1], Err := none }),
           ("d", some { Path := "d", Hash := [2], Err := none })]).Nodup ∧
      (keys [("u", some { Path := "u", Hash := [9], Err := none }),
             ("e", some { Path := "e", Hash := [3], Err := none }),
             ("a", some { Path := "a", Hash := [4], Err := none })]).Nodup ∧
      wellFormed [("u", some { Path := "u", Hash := [9], Err := none }),
        ("e", some { Path := "e", Hash := [1], Err := none }),
        ("d", some { Path := "d", Hash := [2], Err := none })] = true ∧
      wellFormed [("u", some { Path := "u", Hash := [9], Err := none }),
        ("e", some { Path := "e", Hash := [3], Err := none }),
        ("a", some { Path := "a", Hash := [4], Err := none })] = true ∧
      ∀ p, (p ∈ (CompareFileSets
          [("u", some { Path := "u", Hash := [9], Err := none }),
           ("e", some { Path := "e", Hash := [1], Err := none }),
           ("d", some { Path := "d", Hash := [2], Err := none })]
          [("u", some { Path := "u", Hash := [9], Err := none }),
           ("e", some { Path := "e", Hash := [3], Err := none }),
           ("a", some { Path := "a", Hash := [4], Err := none })]).1 ∨
          p ∈ (CompareFileSets
          [("u", some { Path := "u", Hash := [9], Err := none }),
           ("e", some { Path := "e", Hash := [1], Err := none }),
           ("d", some { Path := "d", Hash := [2], Err := none })]
          [("u", some { Path := "u", Hash := [9], Err := none }),
           ("e", some { Path := "e", Hash := [3], Err := none }),
           ("a", some { Path := "a", Hash := [4], Err := none })]).2.1 ∨
          p ∈ (CompareFileSets
          [("u", some { Path := "u", Hash := [9], Err := none }),
           ("e", some { Path := "e", Hash := [1], Err := none }),
           ("d", some { Path := "d", Hash := [2], Err := none })]
          [("u", some { Path := "u", Hash := [9], Err := none }),
           ("e", some { Path := "e", Hash := [3], Err := none }),
           ("a", some { Path := "a", Hash := [4], Err := none })]).2.2) ↔
        ((p ∈ keys [("u", some { Path := "u", Hash := [9], Err := none }),
           ("e", some { Path := "e", Hash := [1], Err := none }),
           ("d", some { Path := "d", Hash := [2], Err := none })] ∨
          p ∈ keys [("u", some { Path := "u", Hash := [9], Err := none }),
           ("e", some { Path := "e", Hash := [3], Err := none }),
           ("a", some { Path := "a", Hash := [4], Err := none })]) ∧
          ¬∃ hb ha : Hashed, fsGet
            [("u", some { Path := "u", Hash := [9], Err := none }),
             ("e", some { Path := "e", Hash := [1], Err := none }),
             ("d", some { Path := "d", Hash := [2], Err := none })] p =
              some (some hb) ∧
            fsGet [("u", some { Path := "u", Hash := [9], Err := none }),
             ("e", some { Path := "e", Hash := [3], Err := none }),
             ("a", some { Path := "a", Hash := [4], Err := none })] p =
              some (some ha) ∧
            specFingerprintEq hb ha = true) := by
  have h := compareFileSets_partition
    [("u", some { Path := "u", Hash := [9], Err := none }),
     ("e", some { Path := "e", Hash := [1], Err := none }),
     ("d", some { Path := "d", Hash := [2], Err := none })]
    [("u", some { Path := "u", Hash := [9], Err := none }),
     ("e", some { Path := "e", Hash := [3], Err := none }),
     ("a", some { Path := "a", Hash := [4], Err := none })]
    (by decide) (by decide) (by decide) (by decide)
  exact ⟨by decide, by decide, by decide, by decide, h.2.2.2⟩

/-- The builder's final map associates every input path with its `Hash`
result, whatever that result is. -/
lemma fsGet_hashAll (fs : String → ReadResult) (paths : List String)
    (p : String) (h : p ∈ paths) :
    fsGet (HashAll fs paths) p = some (some (Hash fs p)) := by
  induction paths with
  | nil => cases h
  | cons q rest ih =>
    by_cases hq : q = p
    · subst hq
      simp [HashAll, fsGet]
    · rcases List.mem_cons.mp h with heq | hm
      · exact absurd heq.symm hq
      · show fsGet ((q, some (Hash fs q)) :: HashAll fs rest) p = _
        simp only [fsGet]
        rw [if_neg hq]
        exact ih hm

/-- C6: when the file cannot be opened or read to completion, `Hash`
returns a fingerprint carrying the path, a non-nil error and no digest;
the failure never aborts the batch — `HashAll` (a total function into
`FileSet`, never an error) still records a fingerprint for the path. -/
theorem hash_failure_recorded (fs : String → ReadResult) (path : String)
    (paths : List String) (hfail : isFailure (fs path) = true)
    (hmem : path ∈ paths) :
    (Hash fs path).Path = path ∧ (Hash fs path).Err.isSome = true ∧
      (Hash fs path).Hash = [] ∧
      fsGet (HashAll fs paths) path = some (some (Hash fs path)) := by
  refine ⟨?_, ?_, ?_, fsGet_hashAll fs paths path hmem⟩ <;>
    cases hr : fs path <;> simp [Hash, hr] <;> simp [isFailure, hr] at hfail

/-- Witness for C6: a filesystem on which every open fails. -/
theorem hash_failure_recorded_check :
    isFailure ((fun _ => ReadResult.openErrorCase "boom") "f") = true ∧
      "f" ∈ ["f"] ∧
      (Hash (fun _ => ReadResult.openErrorCase "boom") "f").Path = "f" ∧
      (Hash (fun _ => ReadResult.openErrorCase "boom") "f").Err.isSome = true ∧
      (Hash (fun _ => ReadResult.openErrorCase "boom") "f").Hash = [] ∧
      fsGet (HashAll (fun _ => ReadResult.openErrorCase "boom") ["f"]) "f" =
        some (some (Hash (fun _ => ReadResult.openErrorCase "boom") "f")) := by
  have h := hash_failure_recorded (fun _ => ReadResult.openErrorCase "boom")
    "f" ["f"] (by decide) (by simp)
  exact ⟨by decide, by simp, h.1, h.2.1, h.2.2.1, h.2.2.2⟩

set_option maxRecDepth 100000 in
/-- C8: hashing a zero-length file yields the published SHA-1 digest of the
empty input, and hashing a file holding exactly the bytes of `"abc"` yields
the published SHA-1 digest of `"abc"`. -/
theorem hash_sha1_vectors :
    (Hash (fun _ => ReadResult.ok []) "empty").Hash =
      [0xda, 0x39, 0xa3, 0xee, 0x5e, 0x6b, 0x4b, 0x0d, 0x32, 0x55,
       0xbf, 0xef, 0x95, 0x60, 0x18, 0x90, 0xaf, 0xd8, 0x07, 0x09] ∧
      (Hash (fun _ => ReadResult.ok [97, 98, 99]) "abc").Hash =
        [0xa9, 0x99, 0x3e, 0x36, 0x47, 0x06, 0x81, 0x6a, 0xba, 0x3e,
         0x25, 0x71, 0x78, 0x50, 0xc2, 0x6c, 0x9c, 0xd0, 0xd8, 0x9d] := by
  constructor <;> decide

mutual
/-- A path is in one walk's file output exactly when it names a reachable
regular file. -/
theorem walk_files_iff : ∀ (e : FSEntry) (p : String),
    p ∈ (walk e).1 ↔ RegularIn e p
  | .regular q, p => by
    constructor
    · intro h
      have hq : p = q := by simpa [walk] using h
      subst hq
      exact RegularIn.reg p
    · intro h
      cases h
      simp [walk]
  | .dir d cs, p => by
    rw [show (walk (.dir d cs)).1 = (walkList cs).1 from rfl,
      walkList_files_iff cs p]
    constructor
    · exact fun h => RegularIn.dir d cs p h
    · intro h
      cases h with
      | dir _ _ _ h2 => exact h2
  | .symlink q, p => by
    constructor
    · intro h
      simp [walk] at h
    · intro h
      cases h
  | .device q, p => by
    constructor
    · intro h
      simp [walk] at h
    · intro h
      cases h
  | .inaccessible q, p => by
    constructor
    · intro h
      simp [walk] at h
    · intro h
      cases h

/-- A path is in a sibling list's file output exactly when some sibling
holds it as a reachable regular file. -/
theorem walkList_files_iff : ∀ (l : FSEntryList) (p : String),
    p ∈ (walkList l).1 ↔ RegularInList l p
  | .nil, p => by
    constructor
    · intro h
      simp [walkList] at h
    · intro h
      cases h
  | .cons e rest, p => by
    rw [show (walkList (.cons e rest)).1 = (walk e).1 ++ (walkList rest).1 from rfl,
      List.mem_append, walk_files_iff e p, walkList_files_iff rest p]
    constructor
    · rintro (h | h)
      · exact RegularInList.head e rest p h
      · exact RegularInList.tail e rest p h
    · intro h
      cases h with
      | head _ _ _ h2 => exact Or.inl h2
      | tail _ _ _ h2 => exact Or.inr h2
end

mutual
/-- A path is in one walk's diagnostics exactly when it names a reachable
inaccessible entry. -/
theorem walk_diags_iff : ∀ (e : FSEntry) (p : String),
    p ∈ (walk e).2 ↔ InaccessibleIn e p
  | .regular q, p => by
    constructor
    · intro h
      simp [walk] at h
    · intro h
      cases h
  | .dir d cs, p => by
    rw [show (walk (.dir d cs)).2 = (walkList cs).2 from rfl,
      walkList_diags_iff cs p]
    constructor
    · exact fun h => InaccessibleIn.dir d cs p h
    · intro h
      cases h with
      | dir _ _ _ h2 => exact h2
  | .symlink q, p => by
    constructor
    · intro h
      simp [walk] at h
    · intro h
      cases h
  | .device q, p => by
    constructor
    · intro h
      simp [walk] at h
    · intro h
      cases h
  | .inaccessible q, p => by
    constructor
    · intro h
      have hq : p = q := by simpa [walk] using h
      subst hq
      exact InaccessibleIn.bad p
    · intro h
      cases h
      simp [walk]

/-- A path is in a sibling list's diagnostics exactly when some sibling
holds it as a reachable inaccessible entry. -/
theorem walkList_diags_iff : ∀ (l : FSEntryList) (p : String),
    p ∈ (walkList l).2 ↔ InaccessibleInList l p
  | .nil, p => by
    constructor
    · intro h
      simp [walkList] at h
    · intro h
      cases h
  | .cons e rest, p => by
    rw [show (walkList (.cons e rest)).2 = (walk e).2 ++ (walkList rest).2 from rfl,
      List.mem_append, walk_diags_iff e p, walkList_diags_iff rest p]
    constructor
    · rintro (h | h)
      · exact InaccessibleInList.head e rest p h
      · exact InaccessibleInList.tail e rest p h
    · intro h
      cases h with
      | head _ _ _ h2 => exact Or.inl h2
      | tail _ _ _ h2 => exact Or.inr h2
end

/-- C7: the enumerator's result contains a path iff it names a reachable
regular file (directories, symlinks and devices are excluded), and the
diagnostics name exactly the entries whose stat/access failed — the walk
continues past them instead of aborting. -/
theorem files_regular_iff (roots : FSEntryList) (p q : String) :
    (p ∈ (Files roots).1 ↔ RegularInList roots p) ∧
      (q ∈ (Files roots).2 ↔ InaccessibleInList roots q) :=
  ⟨walkList_files_iff roots p, walkList_diags_iff roots q⟩

/-- Dispatching a pending task raises the in-flight count by one. -/
lemma inFlightCount_set_inFlight : ∀ (s : List TaskPhase) (i : Nat),
    s.get? i = some .pending →
    inFlightCount (s.set i .inFlight) = inFlightCount s + 1
  | [], i, h => by cases h
  | t :: rest, 0, h => by
    injection h with h
    subst h
    simp [inFlightCount, List.set, List.countP_cons]
  | t :: rest, Nat.succ i, h => by
    have ih := inFlightCount_set_inFlight rest i (by simpa using h)
    show inFlightCount (t :: rest.set i .inFlight) = inFlightCount (t :: rest) + 1
    simp only [inFlightCount, List.countP_cons] at ih ⊢
    omega

/-- Completing an in-flight task lowers the in-flight count by one. -/
lemma inFlightCount_set_done : ∀ (s : List TaskPhase) (i : Nat),
    s.get? i = some .inFlight →
    inFlightCount (s.set i .done) + 1 = inFlightCount s
  | [], i, h => by cases h
  | t :: rest, 0, h => by
    injection h with h
    subst h
    simp [inFlightCount, List.set, List.countP_cons]
  | t :: rest, Nat.succ i, h => by
    have ih := inFlightCount_set_done rest i (by simpa using h)
    show inFlightCount (t :: rest.set i .done) + 1 = inFlightCount (t :: rest)
    simp only [inFlightCount, List.countP_cons] at ih ⊢
    omega

/-- In the initial state no task is in flight. -/
lemma inFlightCount_replicate_pending (n : Nat) :
    inFlightCount (List.replicate n .pending) = 0 := by
  induction n with
  | zero => rfl
  | succ n ih =>
    rw [List.replicate_succ]
    simp only [inFlightCount, List.countP_cons] at ih ⊢
    simp [ih]

/-- C3 (amended): in the bounded builder (`HashAll` of
`src/unnamed/part_000`), every state reachable from the all-pending initial
state of any number of paths has at most 100 file-read-and-hash tasks in
flight: a task starts only by acquiring one of the 100 semaphore slots and
releases it on completion. -/
theorem hashAll_bounded_inflight (n : Nat) (s : List TaskPhase)
    (h : Relation.ReflTransGen BoundedStep (List.replicate n .pending) s) :
    inFlightCount s ≤ 100 := by
  induction h with
  | refl => rw [inFlightCount_replicate_pending]; omega
  | tail hr hstep ih =>
    cases hstep with
    | dispatch i hp hc => rw [inFlightCount_set_inFlight _ i hp]; omega
    | complete i hp =>
      have := inFlightCount_set_done _ i hp
      omega

set_option maxRecDepth 10000 in
/-- Witness for C3's amended theorem: with 250 paths, the state after
dispatching the first task is reachable and within the ceiling. -/
theorem hashAll_bounded_inflight_check :
    Relation.ReflTransGen BoundedStep (List.replicate 250 .pending)
      ((List.replicate 250 .pending).set 0 .inFlight) ∧
      inFlightCount ((List.replicate 250 .pending).set 0 .inFlight) ≤ 100 :=
  ⟨Relation.ReflTransGen.single
      (BoundedStep.dispatch (List.replicate 250 .pending) 0 (by decide) (by decide)),
    hashAll_bounded_inflight 250 _
      (Relation.ReflTransGen.single
        (BoundedStep.dispatch (List.replicate 250 .pending) 0 (by decide) (by decide)))⟩

/-- Setting the element right after a prefix. -/
lemma listSet_append_len (pre : List TaskPhase) (x y : TaskPhase)
    (rest : List TaskPhase) :
    (pre ++ x :: rest).set pre.length y = pre ++ y :: rest := by
  induction pre with
  | nil => rfl
  | cons t ts ih => simp [List.set, ih]

/-- Reading the element right after a prefix. -/
lemma listGet_append_len (pre : List TaskPhase) (x : TaskPhase)
    (rest : List TaskPhase) :
    (pre ++ x :: rest).get? pre.length = some x := by
  induction pre with
  | nil => rfl
  | cons t ts ih => simpa using ih

/-- In the `ex7` builder every pending block can be dispatched outright:
no semaphore condition guards the dispatch rule. -/
lemma unbounded_dispatch_all : ∀ (m : Nat) (pre : List TaskPhase),
    Relation.ReflTransGen UnboundedStep (pre ++ List.replicate m .pending)
      (pre ++ List.replicate m .inFlight)
  | 0, pre => Relation.ReflTransGen.refl
  | m + 1, pre => by
    have hstep : UnboundedStep (pre ++ List.replicate (m + 1) .pending)
        ((pre ++ [TaskPhase.inFlight]) ++ List.replicate m .pending) := by
      have h2 := UnboundedStep.dispatch
        (pre ++ .pending :: List.replicate m .pending) pre.length
        (listGet_append_len pre .pending (List.replicate m .pending))
      rw [listSet_append_len] at h2
      rw [List.replicate_succ]
      simpa using h2
    have hrest := unbounded_dispatch_all m (pre ++ [TaskPhase.inFlight])
    have heq : (pre ++ [TaskPhase.inFlight]) ++ List.replicate m .inFlight =
        pre ++ List.replicate (m + 1) .inFlight := by
      simp [List.replicate_succ]
    exact Relation.ReflTransGen.head hstep (heq ▸ hrest)

set_option maxRecDepth 10000 in
/-- Counterexample to C3 as stated: in the `ex7` variant of `HashAll`
(`src/concurrency/ex7/watch.go` lines 82-101), which spawns one goroutine
per path with no admission gate, the all-in-flight state of 101 paths is
reachable, so more than 100 hash operations can be simultaneously in
flight. -/
theorem hashAll_ex7_unbounded_trace :
    Relation.ReflTransGen UnboundedStep (List.replicate 101 .pending)
      (List.replicate 101 .inFlight) ∧
      100 < inFlightCount (List.replicate 101 .inFlight) := by
  constructor
  · simpa using unbounded_dispatch_all 101 []
  · decide

end Watch
